import Mathlib

/-!
Verification of `export_gff3_feature.py`: a shallow embedding of the
script's four pure components (hybrid GFF3/FASTA parser, sequence
extractor, reverse-complement, FASTA formatter) together with theorems
about them.  Python strings are modelled as Lean `String`s (operated on
through their `List Char` data), Python `int` as `Int`, Python `dict`
as insertion-ordered association lists with overwrite-on-assign, and
fallible Python code (`KeyError`, `ValueError`, `IndexError`) as
`Option`-valued functions returning `none` where the script raises.
-/

/-- Python whitespace characters recognised by `str.strip()` / `str.split()`. -/
def isPySpace (c : Char) : Bool :=
  c = ' ' || c = '\t' || c = '\n' || c = '\r' || c = '\x0b' || c = '\x0c'

/-- `str.strip()`: remove leading and trailing whitespace. -/
def pyStrip (l : List Char) : List Char :=
  ((l.dropWhile isPySpace).reverse.dropWhile isPySpace).reverse

/-- `str.split(sep)` for a single-character separator: splits on every
occurrence of `sep`, keeping empty fields (`"".split(sep) == ['']`). -/
def splitOnChar (sep : Char) : List Char → List (List Char)
  | [] => [[]]
  | c :: cs =>
    let r := splitOnChar sep cs
    if c = sep then [] :: r
    else
      match r with
      | [] => [[c]]
      | g :: gs => (c :: g) :: gs

/-- Accumulator loop for `str.split()` with no separator: splits on runs
of whitespace and produces no empty fields. -/
def splitWsAux (acc : List Char) : List Char → List (List Char)
  | [] => if acc.isEmpty then [] else [acc.reverse]
  | c :: cs =>
    if isPySpace c then
      if acc.isEmpty then splitWsAux [] cs else acc.reverse :: splitWsAux [] cs
    else splitWsAux (c :: acc) cs

/-- `str.split()` (no argument): whitespace runs as separators, empties dropped. -/
def pySplitWs (l : List Char) : List (List Char) := splitWsAux [] l

/-- Digit-accumulating loop of decimal integer parsing. -/
def digitsToNat : List Char → Nat → Option Nat
  | [], acc => some acc
  | c :: cs, acc =>
    if '0' ≤ c && c ≤ '9' then digitsToNat cs (acc * 10 + (c.toNat - '0'.toNat))
    else none

/-- Python `int(s)` on the decimal strings appearing in GFF3 coordinate
fields: optional leading minus sign then decimal digits; anything else
raises `ValueError`, modelled as `none`.  (Python additionally tolerates
surrounding whitespace, a `+` sign and `_` separators; those inputs do
not occur in the claims and are conservatively rejected here.) -/
def pyInt (s : String) : Option Int :=
  match s.data with
  | [] => none
  | '-' :: rest =>
    match rest with
    | [] => none
    | _ => (digitsToNat rest 0).map (fun n => -(n : Int))
  | l => (digitsToNat l 0).map (fun n => (n : Int))

/-- Association-list assignment `d[k] = v`: overwrites the value at an
existing key in place (keeping its position, like a Python `dict`), else
appends a new binding. -/
def alistSet {α : Type} : List (String × α) → String → α → List (String × α)
  | [], k, v => [(k, v)]
  | (k', v') :: rest, k, v =>
    if k' = k then (k, v) :: rest else (k', v') :: alistSet rest k v

/-- Association-list lookup `d.get(k)` / `d[k]`. -/
def alistFind {α : Type} : List (String × α) → String → Option α
  | [], _ => none
  | (k', v') :: rest, k => if k' = k then some v' else alistFind rest k

/-- One matched feature record: `(seqid, int(start), int(end), strand)`
as appended to the `features` list by `parse_gff3`. -/
abbrev Feature := String × Int × Int × String

/-- The local state of `parse_gff3`'s loop over lines: the FASTA-section
flag, the accumulated feature records, the sequence dictionary, and the
current sequence identifier. -/
structure ParseState where
  fasta_start : Bool
  features : List Feature
  sequence_data : List (String × List String)
  current_sequence_id : Option String
deriving DecidableEq

/-- The attribute-column parse from `parse_gff3` line 52: each `;`-token
is split on `=` and must yield exactly a `[key, value]` pair (Python
unpacks `key, value`, raising `ValueError` otherwise, modelled `none`);
pairs are entered into a dict, later duplicates overwriting earlier. -/
def attrLoop : List (List Char) → List (String × String) → Option (List (String × String))
  | [], acc => some acc
  | tok :: rest, acc =>
    match splitOnChar '=' tok with
    | [k, v] => attrLoop rest (alistSet acc (String.mk k) (String.mk v))
    | _ => none

/-- `{key: value for key, value in [attr.split('=') for attr in attributes.split(';')]}`. -/
def parseAttributes (attributes : String) : Option (List (String × String)) :=
  attrLoop (splitOnChar ';' attributes.data) []

/-- The body of `parse_gff3`'s `for line in file` loop (lines 24-55),
acting on one raw line.  `none` models the crashes the Python can hit:
`IndexError` on a bare `>` header, `KeyError` on a sequence line before
any header, `ValueError` from attribute unpacking or `int()`. -/
def parseStep (feature_type attribute_key attribute_value : String)
    (st : ParseState) (raw : String) : Option ParseState :=
  let line := pyStrip raw.data
  if List.isPrefixOf "##FASTA".data line then
    some { st with fasta_start := true }
  else if st.fasta_start then
    if List.isPrefixOf ">".data line then
      match pySplitWs (line.drop 1) with
      | [] => none
      | tok :: _ =>
        let sid := String.mk tok
        some { st with sequence_data := alistSet st.sequence_data sid [],
                       current_sequence_id := some sid }
    else
      match st.current_sequence_id with
      | none => none
      | some cid =>
        match alistFind st.sequence_data cid with
        | none => none
        | some acc =>
          some { st with sequence_data := alistSet st.sequence_data cid (acc ++ [String.mk line]) }
  else
    if List.isPrefixOf "#".data line then some st
    else
      match splitOnChar '\t' line with
      | [seqid, _source, ftype, fstart, fend, _score, strand, _phase, attributes] =>
        if String.mk ftype ≠ feature_type then some st
        else
          match parseAttributes (String.mk attributes) with
          | none => none
          | some attr_dict =>
            if alistFind attr_dict attribute_key = some attribute_value then
              match pyInt (String.mk fstart), pyInt (String.mk fend) with
              | some s, some e =>
                some { st with features := st.features ++ [(String.mk seqid, s, e, String.mk strand)] }
              | _, _ => none
            else some st
      | _ => some st

/-- `parse_gff3`, with the file replaced by its list of lines: folds
`parseStep` from the initial state and returns `(features, sequence_data)`. -/
def parse_gff3 (lines : List String) (feature_type attribute_key attribute_value : String) :
    Option (List Feature × List (String × List String)) :=
  (lines.foldlM (parseStep feature_type attribute_key attribute_value)
      ⟨false, [], [], none⟩).map
    (fun st => (st.features, st.sequence_data))

/-- Effective index of a Python slice endpoint `i` on a sequence of
length `L`: negative indices count from the end and are clamped below at
0, non-negative indices are clamped above at `L`. -/
def pyIndex (L : Nat) (i : Int) : Int :=
  if i < 0 then max ((L : Int) + i) 0 else min i (L : Int)

/-- Python slice `s[a:b]`: the characters at effective positions
`[pyIndex a, pyIndex b)`. -/
def pySlice (s : String) (a b : Int) : String :=
  String.mk ((s.data.drop (pyIndex s.length a).toNat).take
    ((pyIndex s.length b) - (pyIndex s.length a)).toNat)

/-- The complement-table lookup `complement[base]` of `reverse_complement`
(line 90): defined on `A`, `T`, `C`, `G` only; `none` models the
`KeyError` raised on any other character. -/
def complementChar (base : Char) : Option Char :=
  if base = 'A' then some 'T'
  else if base = 'T' then some 'A'
  else if base = 'C' then some 'G'
  else if base = 'G' then some 'C'
  else none

/-- The generator `complement[base] for base in ...` materialised into a
list: fails (as the Python `KeyError` does) on the first unsupported base. -/
def complLoop : List Char → Option (List Char)
  | [] => some []
  | b :: bs =>
    match complementChar b with
    | none => none
    | some d =>
      match complLoop bs with
      | none => none
      | some ds => some (d :: ds)

/-- `reverse_complement(seq)` (lines 80-91):
`''.join(complement[base] for base in reversed(seq))`. -/
def reverse_complement (seq : String) : Option String :=
  (complLoop seq.data.reverse).map String.mk

/-- `get_sequence(sequence_data, seqid, start, end, strand)` (lines 59-78):
join the stored lines, slice `[start-1:end]`, reverse-complement when the
strand is `-`.  `none` models the `KeyError` on a missing `seqid` and the
`KeyError` `reverse_complement` can raise. -/
def get_sequence (sequence_data : List (String × List String)) (seqid : String)
    (start stop : Int) (strand : String) : Option String :=
  match alistFind sequence_data seqid with
  | none => none
  | some chunks =>
    let sequence := pySlice (String.join chunks) (start - 1) stop
    if strand = "-" then reverse_complement sequence else some sequence

/-- Fuel-indexed chunking loop: with `fuel ≥ length` and `n ≥ 1` it
produces the successive slices `l[i:i+n]` for `i in range(0, len(l), n)`. -/
def chunkGo (n : Nat) : Nat → List Char → List (List Char)
  | _, [] => []
  | 0, _ :: _ => []
  | fuel + 1, c :: cs => (c :: cs).take n :: chunkGo n fuel ((c :: cs).drop n)

/-- The list of width-`n` chunks of `l` (last chunk possibly shorter). -/
def chunkList (n : Nat) (l : List Char) : List (List Char) := chunkGo n l.length l

/-- `sep.join(strings)`. -/
def joinWith (sep : String) : List String → String
  | [] => ""
  | [x] => x
  | x :: y :: xs => x ++ sep ++ joinWith sep (y :: xs)

/-- `format_fasta(header, sequence, line_length)` (lines 93-105):
`f">{header}\n" + '\n'.join(sequence[i:i+line_length] for i in
range(0, len(sequence), line_length))`.  `range` with step 0 raises
`ValueError` (modelled `none`); with a negative step it is empty, so the
join contributes nothing. -/
def format_fasta (header sequence : String) (line_length : Int) : Option String :=
  if line_length = 0 then none
  else
    let chunks := if line_length < 0 then [] else chunkList line_length.toNat sequence.data
    some (">" ++ header ++ "\n" ++ joinWith "\n" (chunks.map String.mk))

/-- Total complement on the four DNA letters (identity elsewhere); the
reference function for stating what `complementChar` computes. -/
def dnaComplement (c : Char) : Char :=
  if c = 'A' then 'T' else if c = 'T' then 'A'
  else if c = 'C' then 'G' else if c = 'G' then 'C' else c

lemma complLoop_eq_map (l : List Char)
    (h : ∀ c ∈ l, c = 'A' ∨ c = 'T' ∨ c = 'C' ∨ c = 'G') :
    complLoop l = some (l.map dnaComplement) := by
  induction l with
  | nil => rfl
  | cons c cs ih =>
    have hc := h c (List.mem_cons_self c cs)
    have hcs : ∀ x ∈ cs, x = 'A' ∨ x = 'T' ∨ x = 'C' ∨ x = 'G' :=
      fun x hx => h x (List.mem_cons_of_mem c hx)
    rcases hc with rfl | rfl | rfl | rfl <;>
      simp [complLoop, complementChar, dnaComplement, ih hcs]

lemma complLoop_none (l : List Char) (c : Char) (hc : c ∈ l)
    (hbad : complementChar c = none) : complLoop l = none := by
  induction l with
  | nil => cases hc
  | cons d ds ih =>
    rcases List.mem_cons.mp hc with rfl | hmem
    · simp [complLoop, hbad]
    · cases hd : complementChar d with
      | none => simp [complLoop, hd]
      | some e => simp [complLoop, hd, ih hmem]

lemma dnaComplement_involutive (c : Char)
    (h : c = 'A' ∨ c = 'T' ∨ c = 'C' ∨ c = 'G') :
    dnaComplement (dnaComplement c) = c := by
  rcases h with rfl | rfl | rfl | rfl <;> decide

lemma dnaComplement_mem (c : Char)
    (h : c = 'A' ∨ c = 'T' ∨ c = 'C' ∨ c = 'G') :
    dnaComplement c = 'A' ∨ dnaComplement c = 'T' ∨
      dnaComplement c = 'C' ∨ dnaComplement c = 'G' := by
  rcases h with rfl | rfl | rfl | rfl <;> decide

/-- C6: for every string over {A,T,C,G}, applying `reverse_complement`
twice gives back the original string. -/
theorem rc_involution (s : String)
    (h : ∀ c ∈ s.data, c = 'A' ∨ c = 'T' ∨ c = 'C' ∨ c = 'G') :
    (reverse_complement s).bind reverse_complement = some s := by
  obtain ⟨l⟩ := s
  have h' : ∀ c ∈ l.reverse, c = 'A' ∨ c = 'T' ∨ c = 'C' ∨ c = 'G' :=
    fun c hc => h c (List.mem_reverse.mp hc)
  unfold reverse_complement
  rw [complLoop_eq_map _ h']
  have h'' : ∀ c ∈ (String.mk (l.reverse.map dnaComplement)).data.reverse,
      c = 'A' ∨ c = 'T' ∨ c = 'C' ∨ c = 'G' := by
    intro c hc
    rw [show (String.mk (l.reverse.map dnaComplement)).data = l.reverse.map dnaComplement from rfl,
        List.map_reverse, List.reverse_reverse] at hc
    obtain ⟨d, hd, rfl⟩ := List.mem_map.mp hc
    exact dnaComplement_mem d (h d hd)
  simp only [Option.map_some', Option.some_bind]
  rw [complLoop_eq_map _ h'']
  simp only [Option.map_some', Option.some.injEq]
  congr 1
  have hmc : ∀ c ∈ l.reverse, (dnaComplement ∘ dnaComplement) c = id c := by
    intro c hc
    simpa using dnaComplement_involutive c (h c (List.mem_reverse.mp hc))
  rw [List.map_reverse, List.map_map, List.map_congr_left hmc, List.map_id,
    List.reverse_reverse]

/-- C6 witness: `reverse_complement` is an involution at `"ACGT"`. -/
theorem rc_involution_w : (reverse_complement "ACGT").bind reverse_complement = some "ACGT" :=
  rc_involution "ACGT" (by decide)

/-- C7: a string containing any character outside {A,T,C,G} makes
`reverse_complement` fail (the `KeyError` of the complement table); the
character is neither dropped nor passed through. -/
theorem rc_unsupported (s : String) (c : Char) (hc : c ∈ s.data)
    (hbad : c ≠ 'A' ∧ c ≠ 'T' ∧ c ≠ 'C' ∧ c ≠ 'G') :
    reverse_complement s = none := by
  obtain ⟨h1, h2, h3, h4⟩ := hbad
  have hnone : complementChar c = none := by
    simp [complementChar, h1, h2, h3, h4]
  unfold reverse_complement
  rw [complLoop_none s.data.reverse c (List.mem_reverse.mpr hc) hnone]
  rfl

/-- C7 witness: `reverse_complement "ACGN"` fails on the `'N'`. -/
theorem rc_unsupported_w : reverse_complement "ACGN" = none :=
  rc_unsupported "ACGN" 'N' (by decide) (by decide)

lemma pySlice_nonneg (s : String) (a b : Int) (ha : 0 ≤ a) (hb : 0 ≤ b) :
    pySlice s a b = String.mk ((s.data.drop a.toNat).take (b.toNat - a.toNat)) := by
  unfold pySlice pyIndex
  rw [if_neg (not_lt.mpr ha), if_neg (not_lt.mpr hb)]
  congr 1
  have hlen : s.length = s.data.length := rfl
  rcases le_or_lt ((s.length : Int)) a with hA | hA
  · have h1 : s.data.drop (min a (s.length : Int)).toNat = [] := by
      rw [min_eq_right hA, Int.toNat_natCast]
      exact List.drop_length s.data
    have h2 : s.data.drop a.toNat = [] :=
      List.drop_eq_nil_of_le (by omega)
    rw [h1, h2, List.take_nil, List.take_nil]
  · rw [min_eq_left hA.le]
    rcases le_or_lt ((s.length : Int)) b with hB | hB
    · rw [min_eq_right hB]
      have hd : (s.data.drop a.toNat).length = s.data.length - a.toNat :=
        List.length_drop _ _
      rw [List.take_of_length_le (by omega), List.take_of_length_le (by omega)]
    · rw [min_eq_left hB.le]
      congr 1
      omega

lemma get_sequence_eq (sequence_data : List (String × List String)) (seqid : String)
    (chunks : List String) (start stop : Int) (strand : String)
    (hfind : alistFind sequence_data seqid = some chunks)
    (hstart : 1 ≤ start) (hstop : 0 ≤ stop) :
    get_sequence sequence_data seqid start stop strand =
      (if strand = "-"
       then reverse_complement (String.mk (((String.join chunks).data.drop (start - 1).toNat).take
              (stop.toNat - (start - 1).toNat)))
       else some (String.mk (((String.join chunks).data.drop (start - 1).toNat).take
              (stop.toNat - (start - 1).toNat)))) := by
  unfold get_sequence
  rw [hfind]
  simp only
  rw [pySlice_nonneg (String.join chunks) (start - 1) stop (by omega) hstop]

/-- C1: for a `seqid` present in the map, `get_sequence` returns the
characters of the concatenated sequence in the 0-based half-open range
`[start-1, stop)` (1-based inclusive input coordinates); with strand `-`
that slice is passed through `reverse_complement`, and with any other
strand value it is returned unmodified. -/
theorem get_sequence_spec (sequence_data : List (String × List String)) (seqid : String)
    (chunks : List String) (start stop : Int) (strand : String)
    (hfind : alistFind sequence_data seqid = some chunks)
    (hstart : 1 ≤ start) (hstop : 0 ≤ stop) :
    get_sequence sequence_data seqid start stop strand =
      (if strand = "-"
       then reverse_complement (String.mk (((String.join chunks).data.drop (start - 1).toNat).take
              (stop.toNat - (start - 1).toNat)))
       else some (String.mk (((String.join chunks).data.drop (start - 1).toNat).take
              (stop.toNat - (start - 1).toNat)))) :=
  get_sequence_eq sequence_data seqid chunks start stop strand hfind hstart hstop

/-- C1 witness: extracting 1-based range [2,4] of `"ACGTACGT"` on the
minus strand yields the reverse complement of `"CGT"`, namely `"ACG"`. -/
theorem get_sequence_spec_w :
    get_sequence [("chrI", ["ACGT", "ACGT"])] "chrI" 2 4 "-" = some "ACG" := by
  have h := get_sequence_spec [("chrI", ["ACGT", "ACGT"])] "chrI" ["ACGT", "ACGT"]
    2 4 "-" (by decide) (by decide) (by decide)
  rw [h]
  decide

/-- C2 counterexample: with sequence `"ACGT"` stored under `"chr"`, the
call `get_sequence(_, "chr", 0, 4, '+')` returns `"T"` — the Python
slice `[-1:4]` — not `"ACGT"`, the in-bounds portion of the requested
0-based range `[-1, 4)`; so the out-of-range result is not the clamped
slice the claim describes. -/
theorem get_sequence_clamp_cex :
    get_sequence [("chr", ["ACGT"])] "chr" 0 4 "+" = some "T" ∧
    get_sequence [("chr", ["ACGT"])] "chr" 0 4 "+" ≠
      some (String.mk (("ACGT".data.drop 0).take 4)) := by
  decide

/-- C2 amended: for a `seqid` present in the map and a strand other than
`-`, extraction never errors for any integer coordinates; and whenever
`start ≥ 1` and `stop ≥ 0`, out-of-range coordinates (for example `stop`
beyond the sequence length) are silently clamped, the result being the
in-bounds portion of the 0-based half-open range `[start-1, stop)`.
(For `start ≤ 0` the host's negative-index semantics apply instead, as
the counterexample shows.) -/
theorem get_sequence_amended (sequence_data : List (String × List String)) (seqid : String)
    (chunks : List String) (start stop : Int) (strand : String)
    (hfind : alistFind sequence_data seqid = some chunks)
    (hstrand : strand ≠ "-") :
    (∃ r, get_sequence sequence_data seqid start stop strand = some r) ∧
    (1 ≤ start → 0 ≤ stop →
      get_sequence sequence_data seqid start stop strand =
        some (String.mk (((String.join chunks).data.drop (start - 1).toNat).take
          (stop.toNat - (start - 1).toNat)))) := by
  constructor
  · unfold get_sequence
    rw [hfind]
    simp only [if_neg hstrand]
    exact ⟨_, rfl⟩
  · intro h1 h2
    rw [get_sequence_eq sequence_data seqid chunks start stop strand hfind h1 h2,
      if_neg hstrand]

/-- C2 amended witness: `stop = 99` far beyond the length of `"ACGT"`
clamps silently and returns the whole sequence. -/
theorem get_sequence_amended_w :
    get_sequence [("chr", ["ACGT"])] "chr" 1 99 "+" = some "ACGT" := by
  have h := (get_sequence_amended [("chr", ["ACGT"])] "chr" ["ACGT"] 1 99 "+"
    (by decide) (by decide)).2 (by decide) (by decide)
  rw [h]
  decide

lemma parseStep_fasta (ft ak av : String) (st : ParseState) (raw : String)
    (h : List.isPrefixOf "##FASTA".data (pyStrip raw.data) = true) :
    parseStep ft ak av st raw = some { st with fasta_start := true } := by
  simp [parseStep, h]

lemma parseStep_preserves_fasta (ft ak av : String) (st : ParseState) (raw : String)
    (st' : ParseState) (h : parseStep ft ak av st raw = some st')
    (hst : st.fasta_start = true) : st'.fasta_start = true := by
  simp only [parseStep] at h
  by_cases h1 : List.isPrefixOf "##FASTA".data (pyStrip raw.data) = true
  · rw [if_pos h1] at h
    obtain rfl := Option.some.inj h
    rfl
  · rw [if_neg h1, hst, if_pos rfl] at h
    by_cases h2 : List.isPrefixOf ">".data (pyStrip raw.data) = true
    · rw [if_pos h2] at h
      split at h
      · exact Option.noConfusion h
      · obtain rfl := Option.some.inj h
        rfl
    · rw [if_neg h2] at h
      split at h
      · exact Option.noConfusion h
      · split at h
        · exact Option.noConfusion h
        · obtain rfl := Option.some.inj h
          rfl

lemma foldl_preserves_fasta (ft ak av : String) :
    ∀ (ls : List String) (st st' : ParseState), st.fasta_start = true →
      List.foldlM (parseStep ft ak av) st ls = some st' → st'.fasta_start = true := by
  intro ls
  induction ls with
  | nil =>
    intro st st' hst h
    rw [List.foldlM_nil] at h
    obtain rfl := Option.some.inj h
    exact hst
  | cons l rest ih =>
    intro st st' hst h
    rw [List.foldlM_cons] at h
    cases hstep : parseStep ft ak av st l with
    | none => rw [hstep] at h; exact Option.noConfusion h
    | some s1 =>
      rw [hstep] at h
      exact ih s1 st' (parseStep_preserves_fasta ft ak av st l s1 hstep hst) h

lemma parseStep_seq_header (ft ak av : String) (st : ParseState) (raw : String)
    (tok : List Char) (toks : List (List Char)) (hmode : st.fasta_start = true)
    (hnf : List.isPrefixOf "##FASTA".data (pyStrip raw.data) = false)
    (hgt : List.isPrefixOf ">".data (pyStrip raw.data) = true)
    (hsplit : pySplitWs ((pyStrip raw.data).drop 1) = tok :: toks) :
    parseStep ft ak av st raw =
      some { st with sequence_data := alistSet st.sequence_data (String.mk tok) [],
                     current_sequence_id := some (String.mk tok) } := by
  have hsplit' : pySplitWs ((pyStrip raw.data).tail) = tok :: toks := by
    rw [← List.drop_one]
    exact hsplit
  simp [parseStep, hnf, hmode, hgt, hsplit, hsplit']

lemma parseStep_seq_append (ft ak av : String) (st : ParseState) (raw : String)
    (cid : String) (acc : List String) (hmode : st.fasta_start = true)
    (hnf : List.isPrefixOf "##FASTA".data (pyStrip raw.data) = false)
    (hgt : List.isPrefixOf ">".data (pyStrip raw.data) = false)
    (hcid : st.current_sequence_id = some cid)
    (hfind : alistFind st.sequence_data cid = some acc) :
    parseStep ft ak av st raw =
      some { st with
             sequence_data := alistSet st.sequence_data cid (acc ++ [String.mk (pyStrip raw.data)]) } := by
  simp [parseStep, hnf, hmode, hgt, hcid, hfind]

/-- C3 counterexample: the line `"##FASTAxyz"` is not equal to
`"##FASTA"` after trimming, yet it switches the parser into sequence
mode — the subsequent `">c"` / `"A"` lines are collected as FASTA data
instead of being treated as annotation lines. The source tests the
prefix, not equality. -/
theorem fasta_switch_cex :
    parse_gff3 ["##FASTAxyz", ">c", "A"] "g" "k" "v" = some ([], [("c", ["A"])]) ∧
    pyStrip "##FASTAxyz".data ≠ "##FASTA".data := by
  decide

/-- C3 amended: any line whose whitespace-trimmed form *begins with*
`##FASTA` (not only a line exactly equal to it) switches the parser to
sequence mode; the line itself is discarded (the state changes only in
the mode flag, contributing neither a feature record nor sequence data),
and the switch is permanent: no later step, nor any remaining stream of
lines, ever clears the flag. -/
theorem fasta_switch_amended (ft ak av : String) (st : ParseState) (raw : String) :
    (List.isPrefixOf "##FASTA".data (pyStrip raw.data) = true →
      parseStep ft ak av st raw = some { st with fasta_start := true }) ∧
    (∀ st', parseStep ft ak av st raw = some st' →
      st.fasta_start = true → st'.fasta_start = true) ∧
    (∀ (ls : List String) (st' : ParseState), st.fasta_start = true →
      List.foldlM (parseStep ft ak av) st ls = some st' → st'.fasta_start = true) := by
  refine ⟨parseStep_fasta ft ak av st raw, ?_, ?_⟩
  · intro st' h hst
    exact parseStep_preserves_fasta ft ak av st raw st' h hst
  · intro ls st' hst h
    exact foldl_preserves_fasta ft ak av ls st st' hst h

/-- C3 amended witness: the exact line `"##FASTA"` switches the initial
state into sequence mode and is otherwise discarded. -/
theorem fasta_switch_amended_w :
    parseStep "g" "k" "v" ⟨false, [], [], none⟩ "##FASTA" = some ⟨true, [], [], none⟩ := by
  have h := (fasta_switch_amended "g" "k" "v" ⟨false, [], [], none⟩ "##FASTA").1 (by decide)
  rw [h]

/-- C5 counterexample: in sequence mode the line `"##FASTAz"` is *not*
appended to the current accumulator — it is discarded by the `##FASTA`
prefix test — so `"chr"` maps to the lines `["AC", "GT"]`, not to
`["AC", "##FASTAz", "GT"]` as the claim ("every subsequent non-header
line is appended verbatim") requires. -/
theorem seq_discard_cex :
    parse_gff3 ["##FASTA", ">chr", "AC", "##FASTAz", "GT"] "g" "k" "v" =
      some ([], [("chr", ["AC", "GT"])]) ∧
    parse_gff3 ["##FASTA", ">chr", "AC", "##FASTAz", "GT"] "g" "k" "v" ≠
      some ([], [("chr", ["AC", "##FASTAz", "GT"])]) :=
  ⟨by decide, by decide⟩

/-- C5 amended: in sequence mode, a line whose trimmed form starts with
`##FASTA` is discarded; otherwise a `>` line starts a new entry keyed by
the first whitespace-delimited token after `>`, resetting (via an
overwriting assignment, so the last occurrence wins with no
duplicate-ID error) any prior entry with the same identifier; and every
other line is appended — after whitespace trimming — to the current
identifier's accumulator. -/
theorem seq_mode_amended (ft ak av : String) (st : ParseState) (raw : String)
    (hmode : st.fasta_start = true) :
    (List.isPrefixOf "##FASTA".data (pyStrip raw.data) = true →
      parseStep ft ak av st raw = some { st with fasta_start := true }) ∧
    (List.isPrefixOf "##FASTA".data (pyStrip raw.data) = false →
      List.isPrefixOf ">".data (pyStrip raw.data) = true →
      ∀ tok toks, pySplitWs ((pyStrip raw.data).drop 1) = tok :: toks →
        parseStep ft ak av st raw =
          some { st with sequence_data := alistSet st.sequence_data (String.mk tok) [],
                         current_sequence_id := some (String.mk tok) }) ∧
    (List.isPrefixOf "##FASTA".data (pyStrip raw.data) = false →
      List.isPrefixOf ">".data (pyStrip raw.data) = false →
      ∀ cid acc, st.current_sequence_id = some cid →
        alistFind st.sequence_data cid = some acc →
        parseStep ft ak av st raw =
          some { st with
                 sequence_data := alistSet st.sequence_data cid (acc ++ [String.mk (pyStrip raw.data)]) }) := by
  refine ⟨parseStep_fasta ft ak av st raw, ?_, ?_⟩
  · intro hnf hgt tok toks hsplit
    exact parseStep_seq_header ft ak av st raw tok toks hmode hnf hgt hsplit
  · intro hnf hgt cid acc hcid hfind
    exact parseStep_seq_append ft ak av st raw cid acc hmode hnf hgt hcid hfind

/-- C5 amended witness: in sequence mode with current id `"chr"` holding
`["AC"]`, the line `"GT"` is appended, giving `["AC", "GT"]`. -/
theorem seq_mode_amended_w :
    parseStep "g" "k" "v" ⟨true, [], [("chr", ["AC"])], some "chr"⟩ "GT" =
      some ⟨true, [], [("chr", ["AC", "GT"])], some "chr"⟩ := by
  have h := (seq_mode_amended "g" "k" "v" ⟨true, [], [("chr", ["AC"])], some "chr"⟩ "GT"
    rfl).2.2 (by decide) (by decide) "chr" ["AC"] rfl (by decide)
  rw [h]
  decide

lemma attrLoop_of_bad (toks : List (List Char)) (acc : List (String × String))
    (tok : List Char) (htok : tok ∈ toks)
    (hbad : (splitOnChar '=' tok).length ≠ 2) : attrLoop toks acc = none := by
  induction toks generalizing acc with
  | nil => cases htok
  | cons t ts ih =>
    rcases List.mem_cons.mp htok with rfl | hmem
    · rcases hs : splitOnChar '=' tok with _ | ⟨a, _ | ⟨b, _ | ⟨c, cs⟩⟩⟩ <;>
        simp_all [attrLoop]
    · rcases hs : splitOnChar '=' t with _ | ⟨a, _ | ⟨b, _ | ⟨c, cs⟩⟩⟩ <;>
        simp only [attrLoop, hs]
      exact ih _ hmem

lemma attrLoop_of_good (toks : List (List Char)) (acc : List (String × String))
    (h : ∀ tok ∈ toks, (splitOnChar '=' tok).length = 2) :
    ∃ m, attrLoop toks acc = some m := by
  induction toks generalizing acc with
  | nil => exact ⟨acc, rfl⟩
  | cons t ts ih =>
    have ht := h t (List.mem_cons_self t ts)
    rcases hs : splitOnChar '=' t with _ | ⟨a, _ | ⟨b, _ | ⟨c, cs⟩⟩⟩ <;>
      simp only [hs, List.length_nil, List.length_cons] at ht <;>
      first
        | omega
        | (simp only [attrLoop, hs]
           exact ih _ fun tok hm => h tok (List.mem_cons_of_mem t hm))

/-- C4 counterexample: an attribute token with two `=` characters is
split on *every* `=` (three parts), so the dict-comprehension unpacking
fails: `parseAttributes "ID=a=b"` errors instead of yielding the value
`"a=b"` for key `"ID"`, and a whole annotation line carrying that
attribute makes the parse fail rather than match the feature. -/
theorem attr_first_equals_cex :
    parseAttributes "ID=a=b" = none ∧
    parse_gff3 ["c\ts\tgene\t1\t4\t.\t+\t.\tID=a=b"] "gene" "ID" "a=b" = none ∧
    parse_gff3 ["c\ts\tgene\t1\t4\t.\t+\t.\tID=a=b"] "gene" "ID" "a=b" ≠
      some ([("c", 1, 4, "+")], []) :=
  ⟨by decide, by decide, by decide⟩

/-- C4 amended: the attributes field is split on `;` and then each token
on *every* `=`; a token splitting into anything other than exactly two
parts — no `=` at all, or a value itself containing `=` — aborts the
parse of the file with an (unpacking) error, so the attribute map is
never silently corrupted; when every token has exactly one `=`, the
attribute map is produced. -/
theorem parse_attributes_amended (s : String) :
    (∀ tok ∈ splitOnChar ';' s.data, (splitOnChar '=' tok).length ≠ 2 →
      parseAttributes s = none) ∧
    ((∀ tok ∈ splitOnChar ';' s.data, (splitOnChar '=' tok).length = 2) →
      ∃ m, parseAttributes s = some m) := by
  constructor
  · intro tok htok hbad
    exact attrLoop_of_bad _ [] tok htok hbad
  · intro h
    exact attrLoop_of_good _ [] h

/-- C4 amended witness: the token `"bad"` has no `=`, so the attribute
string `"ID=x;bad"` fails to parse. -/
theorem parse_attributes_amended_w : parseAttributes "ID=x;bad" = none :=
  (parse_attributes_amended "ID=x;bad").1 "bad".data (by decide) (by decide)

lemma chunkGo_nil_list (n fuel : Nat) : chunkGo n fuel [] = [] := by
  cases fuel <;> rfl

lemma chunkGo_join (n : Nat) (hn : 0 < n) :
    ∀ (fuel : Nat) (l : List Char), l.length ≤ fuel → (chunkGo n fuel l).join = l := by
  intro fuel
  induction fuel with
  | zero =>
    intro l hl
    match l with
    | [] => rfl
    | c :: cs => simp at hl
  | succ f ih =>
    intro l hl
    match l with
    | [] => rfl
    | c :: cs =>
      have hdrop : ((c :: cs).drop n).length ≤ f := by
        rw [List.length_drop]
        simp only [List.length_cons] at hl ⊢
        omega
      simp only [chunkGo, List.join_cons, ih ((c :: cs).drop n) hdrop,
        List.take_append_drop]

lemma chunkGo_length_le (n : Nat) :
    ∀ (fuel : Nat) (l : List Char), ∀ c ∈ chunkGo n fuel l, c.length ≤ n := by
  intro fuel
  induction fuel with
  | zero =>
    intro l c hc
    match l with
    | [] => simp [chunkGo_nil_list] at hc
    | x :: xs => simp [chunkGo] at hc
  | succ f ih =>
    intro l c hc
    match l with
    | [] => simp [chunkGo_nil_list] at hc
    | x :: xs =>
      simp only [chunkGo, List.mem_cons] at hc
      rcases hc with rfl | hc
      · simpa using Nat.min_le_left n (x :: xs).length
      · exact ih _ c hc

lemma chunkGo_ne_nil (n : Nat) (fuel : Nat) (l : List Char) (hl : l.length ≤ fuel)
    (hne : l ≠ []) : chunkGo n fuel l ≠ [] := by
  match l with
  | [] => exact absurd rfl hne
  | c :: cs =>
    match fuel with
    | 0 => simp at hl
    | f + 1 => simp [chunkGo]

lemma chunkGo_dropLast_length (n : Nat) (hn : 0 < n) :
    ∀ (fuel : Nat) (l : List Char), l.length ≤ fuel →
      ∀ c ∈ (chunkGo n fuel l).dropLast, c.length = n := by
  intro fuel
  induction fuel with
  | zero =>
    intro l hl c hc
    match l with
    | [] => simp [chunkGo_nil_list] at hc
    | x :: xs => simp at hl
  | succ f ih =>
    intro l hl c hc
    match l with
    | [] => simp [chunkGo_nil_list] at hc
    | x :: xs =>
      have hdrop : ((x :: xs).drop n).length ≤ f := by
        rw [List.length_drop]
        simp only [List.length_cons] at hl ⊢
        omega
      simp only [chunkGo] at hc
      by_cases hrest : (x :: xs).drop n = []
      · rw [hrest, chunkGo_nil_list, List.dropLast_single] at hc
        cases hc
      · have hne := chunkGo_ne_nil n f ((x :: xs).drop n) hdrop hrest
        rcases hr : chunkGo n f ((x :: xs).drop n) with _ | ⟨r, rs⟩
        · exact absurd hr hne
        · rw [hr, List.dropLast_cons₂, List.mem_cons] at hc
          rcases hc with rfl | hc
          · have hlen : n < (x :: xs).length := by
              by_contra hcon
              exact hrest (List.drop_eq_nil_of_le (by omega))
            simp only [List.length_take, List.length_cons]
            simp only [List.length_cons] at hlen
            omega
          · exact ih _ hdrop c (by rw [hr]; exact hc)

/-- C8: for any header, sequence and line length `n ≥ 1`, the formatter
output is `>` + header + newline followed by the chunks of the sequence
joined by single newlines (no trailing newline); the chunks concatenate
back to the sequence, every chunk except possibly the last has length
exactly `n`, and no chunk exceeds `n`; in particular
`format_fasta "h" "ACGTACGTAC" 4` yields the lines `">h"`, `"ACGT"`,
`"ACGT"`, `"AC"`. -/
theorem format_fasta_spec (h s : String) (n : Int) (hn : 1 ≤ n) :
    format_fasta h s n =
      some (">" ++ h ++ "\n" ++ joinWith "\n" ((chunkList n.toNat s.data).map String.mk)) ∧
    (chunkList n.toNat s.data).join = s.data ∧
    (∀ c ∈ (chunkList n.toNat s.data).dropLast, c.length = n.toNat) ∧
    (∀ c ∈ chunkList n.toNat s.data, c.length ≤ n.toNat) ∧
    format_fasta "h" "ACGTACGTAC" 4 = some ">h\nACGT\nACGT\nAC" := by
  refine ⟨?_, ?_, ?_, ?_, by decide⟩
  · simp only [format_fasta]
    rw [if_neg (show ¬n = 0 by omega), if_neg (show ¬n < 0 by omega)]
  · exact chunkGo_join n.toNat (by omega) s.data.length s.data le_rfl
  · exact chunkGo_dropLast_length n.toNat (by omega) s.data.length s.data le_rfl
  · exact fun c hc => chunkGo_length_le n.toNat s.data.length s.data c hc

/-- C8 witness: wrapping `"ABCDE"` at width 2 gives lines of 2, 2, 1. -/
theorem format_fasta_spec_w : format_fasta "x" "ABCDE" 2 = some ">x\nAB\nCD\nE" := by
  have h := (format_fasta_spec "x" "ABCDE" 2 (by decide)).1
  rw [h]
  decide

/-- C9 counterexample: `line_length = -1` is ≤ 0, yet `format_fasta`
does not reject it — the Python `range(0, len, -1)` is simply empty, so
the call silently returns just the header line `">h\n"`. -/
theorem format_negative_cex :
    format_fasta "h" "ACGT" (-1) = some ">h\n" ∧
    format_fasta "h" "ACGT" (-1) ≠ none :=
  ⟨by decide, by decide⟩

/-- C9 amended: only `line_length = 0` is rejected (the `range` step of
0 raises `ValueError`); a negative line length is accepted silently and
produces just `>` + header + newline with no sequence lines. -/
theorem format_lineLength_amended :
    (∀ h s : String, format_fasta h s 0 = none) ∧
    (∀ (h s : String) (n : Int), n < 0 → format_fasta h s n = some (">" ++ h ++ "\n")) := by
  constructor
  · intro h s
    simp [format_fasta]
  · intro h s n hneg
    simp only [format_fasta]
    rw [if_neg (show ¬n = 0 by omega), if_pos hneg]
    simp [joinWith]

/-- C9 amended witness: width 0 errors; width -1 yields only the header. -/
theorem format_lineLength_amended_w :
    format_fasta "hdr" "ACGT" 0 = none ∧ format_fasta "z" "ACGT" (-1) = some ">z\n" := by
  constructor
  · exact format_lineLength_amended.1 "hdr" "ACGT"
  · have h := format_lineLength_amended.2 "z" "ACGT" (-1) (by decide)
    rw [h]
    decide

/-- C10: formatting the empty sequence with any line length `n ≥ 1`
returns exactly `>` + header + newline: the newline after the header is
still present although no sequence lines are produced. -/
theorem format_empty_sequence (h : String) (n : Int) (hn : 1 ≤ n) :
    format_fasta h "" n = some (">" ++ h ++ "\n") := by
  simp only [format_fasta]
  rw [if_neg (show ¬n = 0 by omega), if_neg (show ¬n < 0 by omega)]
  simp [chunkList, chunkGo_nil_list, joinWith]

/-- C10 witness: the default width 60 on the empty sequence. -/
theorem format_empty_sequence_w : format_fasta "hdr" "" 60 = some ">hdr\n" := by
  have h := format_empty_sequence "hdr" 60 (by decide)
  rw [h]
  decide
